import Mathlib

/-!
# Verification of the StuddyBuddy 7-day plan-generation engine

Shallow embedding of `generatePlanForUser` (the plan-generation function of
the repository) and proofs of the specified properties.

Modelling conventions:

* Calendar dates are integers (day numbers).  The calendar weekday of day
  `n` is `n % 7` (Euclidean mod, always in `0..6`, exactly the range of
  JavaScript `Date.getDay()`); day number 0 is taken to be a Sunday.
  The source stores dates both as `Date` objects and as `YYYY-MM-DD`
  strings whose lexicographic order agrees with calendar order, so a
  single integer faithfully represents both.
* JavaScript numbers are modelled as exact rationals `ℚ`, and
  `Math.round` as `jsRound q = Rat.floor (q + 1/2)` (round half toward
  positive infinity, the JavaScript rule).
* The inner `while` allocation loop is written with an explicit fuel
  argument; the generator always calls it with fuel equal to the
  candidate's remaining minutes, which can never run out before the
  loop's own guard stops it because every iteration allocates at least
  one minute (lemma `allocLoop_fuel`).
* `Array.prototype.sort` is stable and the comparator
  `(a, b) => b.score - a.score` orders by score descending; this is
  modelled by a stable insertion sort on the indices of the scored list.
* The Supabase store is a record holding the `plan_items` rows and the
  `plan_meta.shortfall_minutes` value for the one user under
  consideration.  The `updated_at` wall-clock timestamp carries no
  algorithmic content and is not modelled.
* The `assessments` query filters `status ≠ 'done'` in SQL, where a NULL
  status makes the comparison unknown and drops the row; `statusNotDone`
  reproduces that three-valued behaviour.
-/

namespace StuddyBuddy

attribute [local semireducible] Rat.add Rat.mul Rat.inv Rat.sub Rat.ofScientific

/-- JavaScript `Math.round`: round half toward positive infinity. -/
def jsRound (q : ℚ) : ℤ :=
  (q + 1/2).floor

/-- The helper `clamp(n, lo, hi) = Math.max(lo, Math.min(hi, n))` from the source. -/
def jsClamp (n lo hi : ℕ) : ℕ :=
  max lo (min hi n)

/-- The helper `minutesToShortfall` from the source: human-readable duration string. -/
def minutesToShortfall (mins : ℕ) : String :=
  let h := mins / 60
  let m := mins % 60
  if h = 0 then toString m ++ " minutes"
  else if m = 0 then toString h ++ " hours"
  else toString h ++ "h " ++ toString m ++ "m"

/-- A row of the `availability` table: weekday (0 = Sunday .. 6 = Saturday)
and `hours_available`. -/
structure AvailRow where
  weekday : ℤ
  hours : ℚ
deriving DecidableEq

/-- A row of the `assessments` table as selected by the generator. -/
structure AssessmentRow where
  id : ℕ
  title : String
  courseId : Option ℕ
  dueDate : ℤ
  estimatedHours : ℚ
  status : Option String
deriving DecidableEq

/-- A row of the `courses` table as selected by the generator. -/
structure CourseRow where
  id : ℕ
  title : String
  difficulty : ℚ
deriving DecidableEq

/-- A scored assessment: the working object built by the generator, whose
`remainingMinutes` field is the per-run mutable counter. -/
structure Scored where
  id : ℕ
  title : String
  courseId : Option ℕ
  dueDate : ℤ
  score : ℚ
  remainingMinutes : ℕ
deriving DecidableEq

/-- A `plan_items` row (a study block). -/
structure PlanRow where
  planDate : ℤ
  title : String
  minutes : ℕ
  assessmentId : ℕ
  done : Bool
deriving DecidableEq

/-- The persistent store for one user: `plan_items` rows and the
`plan_meta.shortfall_minutes` value (absent before the first run). -/
structure Store where
  planItems : List PlanRow
  planMeta : Option ℕ
deriving DecidableEq

/-- The value returned by `generatePlanForUser`. -/
structure GenResult where
  planRowsCount : ℕ
  shortfallMinutes : ℕ
  message : Option String
  warning : Option String
deriving DecidableEq

/-- The inputs of one generation run: the reference date (`today`,
truncated to day granularity) and the three tables read for the user. -/
structure GenInputs where
  today : ℤ
  availRows : List AvailRow
  assessmentRows : List AssessmentRow
  courseRows : List CourseRow
deriving DecidableEq

/-- Lookup in the `hoursByWeekday` map of the source: every weekday 0..6 is
initialised to 2 hours, then each availability row overwrites its weekday
(last write wins). -/
def hoursForWeekday (rows : List AvailRow) (wd : ℤ) : ℚ :=
  match rows.reverse.find? (fun r => r.weekday == wd) with
  | some r => r.hours
  | none => 2

/-- Capacity in minutes of window day `d` (`capacityByDayMinutes[d]`). -/
def capacityOfDay (inp : GenInputs) (d : ℕ) : ℤ :=
  jsRound (hoursForWeekday inp.availRows ((inp.today + d) % 7) * 60)

/-- The `totalCapacity` value from the source. -/
def totalCapacity (inp : GenInputs) : ℤ :=
  ((List.range 7).map (capacityOfDay inp)).sum

/-- The 7 dates of the planning window (`dayDates`). -/
def windowDates (inp : GenInputs) : List ℤ :=
  (List.range 7).map (fun i => inp.today + i)

/-- The SQL filter `status ≠ 'done'`; a NULL status makes the SQL comparison
unknown, so the row is dropped. -/
def statusNotDone (s : Option String) : Bool :=
  match s with
  | some v => v != "done"
  | none => false

/-- The assessments that participate in the run: status not `'done'` and due
date inside the window `[today, today + 6]`. -/
def qualifyingAssessments (inp : GenInputs) : List AssessmentRow :=
  inp.assessmentRows.filter fun a =>
    statusNotDone a.status && decide (inp.today ≤ a.dueDate)
      && decide (a.dueDate ≤ inp.today + 6)

/-- Lookup in `courseTitleById` (last write wins, as for a JS `Map`). -/
def courseTitleFor (courses : List CourseRow) (cid : ℕ) : Option String :=
  (courses.reverse.find? (fun c => c.id == cid)).map CourseRow.title

/-- Lookup in `difficultyByCourseId`, defaulting to 3 when the assessment has
no course or the course is unknown. -/
def difficultyFor (courses : List CourseRow) (courseId : Option ℕ) : ℚ :=
  match courseId with
  | none => 3
  | some cid =>
    match courses.reverse.find? (fun c => c.id == cid) with
    | some c => c.difficulty
    | none => 3

/-- Block title: `` `${courseName} — ${a.title}` `` when a course name is
found and truthy, otherwise the bare assessment title (an empty course title
is falsy in JavaScript). -/
def blockTitle (courses : List CourseRow) (a : Scored) : String :=
  match a.courseId with
  | none => a.title
  | some cid =>
    match courseTitleFor courses cid with
    | some t => if t = "" then a.title else t ++ " — " ++ a.title
    | none => a.title

/-- The `daysLeft` value: whole days until the due date, floored at 0. -/
def daysLeftOf (today due : ℤ) : ℤ :=
  max 0 (due - today)

/-- Build one scored assessment object exactly as the source does. -/
def mkScored (inp : GenInputs) (a : AssessmentRow) : Scored :=
  let daysLeft := daysLeftOf inp.today a.dueDate
  let difficulty := difficultyFor inp.courseRows a.courseId
  { id := a.id
    title := a.title
    courseId := a.courseId
    dueDate := a.dueDate
    score := (difficulty + 1) / ((daysLeft : ℚ) + 1)
    remainingMinutes := (max 0 (jsRound (a.estimatedHours * 60))).toNat }

/-- The `scored` list of the source. -/
def scoredInit (inp : GenInputs) : List Scored :=
  (qualifyingAssessments inp).map (mkScored inp)

/-- The constant `CHUNK_MINUTES` from the source. -/
def CHUNK_MINUTES : ℕ := 30

/-- The constant `MAX_CHUNK_MINUTES` from the source. -/
def MAX_CHUNK_MINUTES : ℕ := 60

/-- The inner `while` loop of the allocator: while the candidate still needs
minutes and the day has capacity, emit one block of
`min (clamp 30 15 60) remaining capacity` minutes and decrement both
counters.  The first argument is fuel; the generator calls the loop with
fuel equal to `remaining`, which suffices because every iteration allocates
at least one minute (`allocLoop_fuel`). -/
def allocLoop (aid : ℕ) (t : String) (planDate : ℤ) :
    ℕ → ℕ → ℕ → List PlanRow × ℕ × ℕ
  | 0, rem, cap => ([], rem, cap)
  | fuel + 1, rem, cap =>
    if rem = 0 ∨ cap = 0 then ([], rem, cap)
    else
      let chunk := jsClamp CHUNK_MINUTES 15 MAX_CHUNK_MINUTES
      let minutes := min chunk (min rem cap)
      if minutes = 0 then ([], rem, cap)
      else
        let b : PlanRow :=
          { planDate := planDate, title := t, minutes := minutes,
            assessmentId := aid, done := false }
        let r := allocLoop aid t planDate fuel (rem - minutes) (cap - minutes)
        (b :: r.1, r.2)

/-- The candidate loop of one day: walk the sorted candidate indices,
breaking when capacity is exhausted; run the allocation loop for each
candidate and write its new remaining minutes back into the scored list. -/
def processDay (courses : List CourseRow) (currentDate : ℤ) :
    List Scored → List ℕ → ℕ → List Scored × List PlanRow × ℕ
  | scored, [], cap => (scored, [], cap)
  | scored, i :: rest, cap =>
    if cap = 0 then (scored, [], cap)
    else
      match scored[i]? with
      | none => processDay courses currentDate scored rest cap
      | some a =>
        let r :=
          allocLoop a.id (blockTitle courses a) currentDate
            a.remainingMinutes a.remainingMinutes cap
        let scored2 := scored.set i { a with remainingMinutes := r.2.1 }
        let rest2 := processDay courses currentDate scored2 rest r.2.2
        (rest2.1, r.1 ++ rest2.2.1, rest2.2.2)

/-- The candidate filter of one day: still needing time and not past due. -/
def isCandidate (currentDate : ℤ) (a : Scored) : Bool :=
  decide (0 < a.remainingMinutes) && decide (currentDate ≤ a.dueDate)

/-- Score of the scored assessment at index `i` (0 out of range). -/
def scoreAt (scored : List Scored) (i : ℕ) : ℚ :=
  match scored[i]? with
  | some a => a.score
  | none => 0

/-- Stable insertion into a score-descending list of indices: `i` goes in
front of the first index of no greater score, so equal scores keep their
original relative order, exactly as the stable JavaScript
`sort((a, b) => b.score - a.score)`. -/
def insertByScore (scored : List Scored) (i : ℕ) : List ℕ → List ℕ
  | [] => [i]
  | j :: js =>
    if scoreAt scored j ≤ scoreAt scored i then i :: j :: js
    else j :: insertByScore scored i js

/-- Stable insertion sort of indices by score descending. -/
def sortByScore (scored : List Scored) : List ℕ → List ℕ
  | [] => []
  | i :: is => insertByScore scored i (sortByScore scored is)

/-- The `candidates` list of one day, as indices into the scored list:
filter to candidates, then sort by score descending (stably). -/
def dayCandidates (scored : List Scored) (currentDate : ℤ) : List ℕ :=
  sortByScore scored
    ((List.range scored.length).filter fun i =>
      match scored[i]? with
      | some a => isCandidate currentDate a
      | none => false)

/-- One iteration of the day loop: skip the day if its capacity is ≤ 0,
otherwise run the candidate loop and append the day's blocks. -/
def stepDay (inp : GenInputs) (st : List Scored × List PlanRow) (d : ℕ) :
    List Scored × List PlanRow :=
  let cap := capacityOfDay inp d
  if cap ≤ 0 then st
  else
    let currentDate := inp.today + d
    let r := processDay inp.courseRows currentDate st.1
      (dayCandidates st.1 currentDate) cap.toNat
    (r.1, st.2 ++ r.2.1)

/-- The full day loop over the 7 window days. -/
def runAllDays (inp : GenInputs) : List Scored × List PlanRow :=
  (List.range 7).foldl (stepDay inp) (scoredInit inp, [])

/-- The scored list after the whole allocation pass. -/
def finalScored (inp : GenInputs) : List Scored :=
  (runAllDays inp).1

/-- The `planRows` produced by the run. -/
def planRows (inp : GenInputs) : List PlanRow :=
  (runAllDays inp).2

/-- The `remainingWork` value: unallocated minutes left over after the pass. -/
def remainingWork (inp : GenInputs) : ℕ :=
  ((finalScored inp).map Scored.remainingMinutes).sum

/-- The `shortfallMinutes` value: 0 unless some work is left over (the source guards
the assignment with `remainingWork > 0`; over naturals this is the same
value as `remainingWork`). -/
def shortfallMinutes (inp : GenInputs) : ℕ :=
  if 0 < remainingWork inp then remainingWork inp else 0

/-- Membership of a block's date in the window, as used by the
`delete ... in("plan_date", dayDates)` call. -/
def inWindow (inp : GenInputs) (b : PlanRow) : Bool :=
  (windowDates inp).contains b.planDate

/-- The overload warning string of the non-empty-plan branch. -/
def overloadWarning (sf : ℕ) : String :=
  "Overload: you\x27re short by " ++ minutesToShortfall sf ++
    " within the next 7 days. Increase availability or reduce estimated hours."

/-- The warning string of the zero-total-capacity edge branch. -/
def zeroCapacityWarning : String :=
  "Overload: availability is 0 for all 7 days."

/-- The whole generation run: the pure state transformer on the store
induced by `generatePlanForUser`, paired with its returned value.  Branches
mirror the source: early return when no assessment qualifies (note: without
touching `plan_items`), otherwise delete the window rows, allocate, and
either return the shortfall-only result (zero blocks) or insert the rows and
compute the warning. -/
def generatePlanForUser (inp : GenInputs) (store : Store) : Store × GenResult :=
  if (qualifyingAssessments inp).isEmpty then
    ({ store with planMeta := some 0 },
     { planRowsCount := 0, shortfallMinutes := 0,
       message := some "No assessments due in the next 7 days.",
       warning := none })
  else
    let kept := store.planItems.filter fun b => ! inWindow inp b
    let rows := planRows inp
    let sf := shortfallMinutes inp
    if rows.isEmpty then
      ({ planItems := kept, planMeta := some sf },
       { planRowsCount := 0, shortfallMinutes := sf,
         message := some "No time available in the next 7 days to schedule tasks.",
         warning := some ("Overload shortfall: " ++ minutesToShortfall sf ++ ".") })
    else
      let warning :=
        if 0 < sf then some (overloadWarning sf)
        else if 0 < rows.length ∧ totalCapacity inp = 0 then some zeroCapacityWarning
        else none
      ({ planItems := kept ++ rows, planMeta := some sf },
       { planRowsCount := rows.length, shortfallMinutes := sf,
         message := some ("Generated " ++ toString rows.length
           ++ " blocks across the next 7 days."),
         warning := warning })

/-- Forget the mutable counter of a scored assessment: what is left are the
fields the allocator never writes. -/
def eraseRem (a : Scored) : Scored :=
  { a with remainingMinutes := 0 }

/-! ### Concrete inputs used to witness and refute the claims -/

/-- An empty store. -/
def emptyStore : Store :=
  { planItems := [], planMeta := none }

/-- A store holding one stale block dated inside the window of `today = 0`. -/
def staleStore : Store :=
  { planItems := [{ planDate := 0, title := "stale", minutes := 60,
                    assessmentId := 99, done := false }],
    planMeta := none }

/-- No assessments at all. -/
def inpNoAssessments : GenInputs :=
  { today := 0, availRows := [], assessmentRows := [], courseRows := [] }

/-- Default availability (2 h/day), one 4-hour assessment due in 3 days. -/
def inpEstimateA : GenInputs :=
  { today := 0, availRows := [],
    assessmentRows := [{ id := 1, title := "A", courseId := none, dueDate := 3,
                         estimatedHours := 4, status := some "todo" }],
    courseRows := [] }

/-- Zero availability all week, one 2-hour assessment due in 2 days. -/
def inpZeroAvail : GenInputs :=
  { today := 0,
    availRows := [⟨0, 0⟩, ⟨1, 0⟩, ⟨2, 0⟩, ⟨3, 0⟩, ⟨4, 0⟩, ⟨5, 0⟩, ⟨6, 0⟩],
    assessmentRows := [{ id := 1, title := "B", courseId := none, dueDate := 2,
                         estimatedHours := 2, status := some "todo" }],
    courseRows := [] }

/-- One qualifying assessment whose estimate is 0 hours. -/
def inpZeroEstimate : GenInputs :=
  { today := 0, availRows := [],
    assessmentRows := [{ id := 1, title := "Z", courseId := none, dueDate := 2,
                         estimatedHours := 0, status := some "todo" }],
    courseRows := [] }

/-- 45 minutes of capacity on days 0 and 1, one 60-minute assessment due on
day 1: the capacity cut produces fragments on both days. -/
def inpFragmented : GenInputs :=
  { today := 0,
    availRows := [⟨0, 3/4⟩, ⟨1, 3/4⟩, ⟨2, 0⟩, ⟨3, 0⟩, ⟨4, 0⟩, ⟨5, 0⟩, ⟨6, 0⟩],
    assessmentRows := [{ id := 1, title := "A", courseId := none, dueDate := 1,
                         estimatedHours := 1, status := some "todo" }],
    courseRows := [] }

/-- The assessment row of `inpEstimateA`. -/
def assessA : AssessmentRow :=
  { id := 1, title := "A", courseId := none, dueDate := 3,
    estimatedHours := 4, status := some "todo" }

/-- The assessment row of `inpZeroEstimate`. -/
def assessZ : AssessmentRow :=
  { id := 1, title := "Z", courseId := none, dueDate := 2,
    estimatedHours := 0, status := some "todo" }

/-- The first study block generated for `inpEstimateA`. -/
def blockA : PlanRow :=
  { planDate := 0, title := "A", minutes := 30, assessmentId := 1,
    done := false }

/-- A high-priority scored assessment (score 6). -/
def scoredHigh : Scored :=
  { id := 1, title := "hard", courseId := none, dueDate := 1, score := 6,
    remainingMinutes := 60 }

/-- A low-priority scored assessment (score 2). -/
def scoredLow : Scored :=
  { id := 2, title := "easy", courseId := none, dueDate := 1, score := 2,
    remainingMinutes := 60 }

/-- Total minutes of a list of blocks. -/
def sumMinutes (bs : List PlanRow) : ℕ :=
  (bs.map PlanRow.minutes).sum

/-- Minutes allocated to the assessment with id `aid` in a list of blocks. -/
def allocatedTo (aid : ℕ) (bs : List PlanRow) : ℕ :=
  sumMinutes (bs.filter fun b => b.assessmentId == aid)

/-- Remaining minutes held by the entries of a scored list with id `aid`. -/
def remSum (aid : ℕ) (scored : List Scored) : ℕ :=
  ((scored.filter fun a => a.id == aid).map Scored.remainingMinutes).sum

/-! ### Basic lemmas about the measures -/

@[simp] theorem sumMinutes_nil : sumMinutes [] = 0 := rfl

@[simp] theorem sumMinutes_cons (b : PlanRow) (bs : List PlanRow) :
    sumMinutes (b :: bs) = b.minutes + sumMinutes bs := rfl

@[simp] theorem sumMinutes_append (l1 l2 : List PlanRow) :
    sumMinutes (l1 ++ l2) = sumMinutes l1 + sumMinutes l2 := by
  simp [sumMinutes]

@[simp] theorem allocatedTo_nil (aid : ℕ) : allocatedTo aid [] = 0 := rfl

theorem allocatedTo_cons (aid : ℕ) (b : PlanRow) (bs : List PlanRow) :
    allocatedTo aid (b :: bs) =
      (if b.assessmentId = aid then b.minutes else 0) + allocatedTo aid bs := by
  simp only [allocatedTo, List.filter_cons, beq_iff_eq]
  split <;> simp

@[simp] theorem allocatedTo_append (aid : ℕ) (l1 l2 : List PlanRow) :
    allocatedTo aid (l1 ++ l2) = allocatedTo aid l1 + allocatedTo aid l2 := by
  simp [allocatedTo]

@[simp] theorem remSum_nil (aid : ℕ) : remSum aid [] = 0 := rfl

theorem remSum_cons (aid : ℕ) (a : Scored) (l : List Scored) :
    remSum aid (a :: l) =
      (if a.id = aid then a.remainingMinutes else 0) + remSum aid l := by
  simp only [remSum, List.filter_cons, beq_iff_eq]
  split <;> simp

/-- Minutes allocated by a list whose blocks all carry assessment id `aid`:
the filter keeps everything. -/
theorem allocatedTo_of_all (aid : ℕ) (bs : List PlanRow)
    (h : ∀ b ∈ bs, b.assessmentId = aid) : allocatedTo aid bs = sumMinutes bs := by
  induction bs with
  | nil => rfl
  | cons b bs ih =>
    have hb := h b (by simp)
    rw [allocatedTo_cons, if_pos hb, sumMinutes_cons, ih]
    intro x hx
    exact h x (by simp [hx])

theorem allocatedTo_of_none (aid : ℕ) (bs : List PlanRow)
    (h : ∀ b ∈ bs, b.assessmentId ≠ aid) : allocatedTo aid bs = 0 := by
  induction bs with
  | nil => rfl
  | cons b bs ih =>
    have hb := h b (by simp)
    have ht : allocatedTo aid bs = 0 := ih fun x hx => h x (by simp [hx])
    rw [allocatedTo_cons, if_neg hb, ht]

/-! ### Lemmas about the allocation loop -/

@[simp] theorem chunk_eq : jsClamp CHUNK_MINUTES 15 MAX_CHUNK_MINUTES = 30 := rfl

/-- With no remaining work or no remaining capacity, the loop does nothing. -/
theorem allocLoop_zero (aid : ℕ) (t : String) (d : ℤ) (fuel rem cap : ℕ)
    (h : rem = 0 ∨ cap = 0) : allocLoop aid t d fuel rem cap = ([], rem, cap) := by
  cases fuel with
  | zero => rfl
  | succ fuel => simp [allocLoop, h]

/-- The fuel is irrelevant as soon as it is at least the remaining minutes:
every iteration allocates at least one minute, so calling the loop with
`fuel = rem` (as the generator does) behaves exactly like the unbounded
`while` loop of the source. -/
theorem allocLoop_fuel (aid : ℕ) (t : String) (d : ℤ) :
    ∀ fuel fuel' rem cap, rem ≤ fuel → rem ≤ fuel' →
      allocLoop aid t d fuel rem cap = allocLoop aid t d fuel' rem cap := by
  intro fuel
  induction fuel with
  | zero =>
    intro fuel' rem cap h h'
    have hz : rem = 0 := by omega
    rw [allocLoop_zero _ _ _ _ _ _ (Or.inl hz), allocLoop_zero _ _ _ _ _ _ (Or.inl hz)]
  | succ f ih =>
    intro fuel' rem cap h h'
    cases fuel' with
    | zero =>
      have hz : rem = 0 := by omega
      rw [allocLoop_zero _ _ _ _ _ _ (Or.inl hz), allocLoop_zero _ _ _ _ _ _ (Or.inl hz)]
    | succ f' =>
      simp only [allocLoop, chunk_eq]
      split
      · rfl
      · split
        · rfl
        · next hg hm =>
          have hpos : 0 < min 30 (min rem cap) := Nat.pos_of_ne_zero hm
          rw [ih f' (rem - min 30 (min rem cap)) (cap - min 30 (min rem cap))
            (by omega) (by omega)]

/-- Every block emitted by the loop carries the candidate's id, the day's
date, the computed title, `done = false`, and a duration in `1..30`. -/
theorem allocLoop_mem (aid : ℕ) (t : String) (d : ℤ) :
    ∀ fuel rem cap, ∀ b ∈ (allocLoop aid t d fuel rem cap).1,
      b.assessmentId = aid ∧ b.planDate = d ∧ b.title = t ∧ b.done = false ∧
        0 < b.minutes ∧ b.minutes ≤ 30 := by
  intro fuel
  induction fuel with
  | zero => intro rem cap b hb; simp [allocLoop] at hb
  | succ fuel ih =>
    intro rem cap b hb
    simp only [allocLoop, chunk_eq] at hb
    split at hb
    · simp at hb
    · split at hb
      · simp at hb
      · next hm =>
        simp only [List.mem_cons] at hb
        rcases hb with hb | hb
        · subst hb
          refine ⟨rfl, rfl, rfl, rfl, Nat.pos_of_ne_zero hm, ?_⟩
          exact Nat.min_le_left _ _
        · exact ih _ _ b hb

/-- Conservation: the loop's blocks sum to exactly what was removed from the
remaining-minutes counter and from the capacity counter. -/
theorem allocLoop_conserve (aid : ℕ) (t : String) (d : ℤ) :
    ∀ fuel rem cap,
      sumMinutes (allocLoop aid t d fuel rem cap).1
          + (allocLoop aid t d fuel rem cap).2.1 = rem ∧
      sumMinutes (allocLoop aid t d fuel rem cap).1
          + (allocLoop aid t d fuel rem cap).2.2 = cap := by
  intro fuel
  induction fuel with
  | zero => intro rem cap; simp [allocLoop]
  | succ fuel ih =>
    intro rem cap
    simp only [allocLoop, chunk_eq]
    split
    · simp
    · split
      · simp
      · next hm =>
        have := ih (rem - min 30 (min rem cap)) (cap - min 30 (min rem cap))
        simp only [sumMinutes_cons]
        have h1 : min 30 (min rem cap) ≤ rem :=
          le_trans (Nat.min_le_right _ _) (Nat.min_le_left _ _)
        have h2 : min 30 (min rem cap) ≤ cap :=
          le_trans (Nat.min_le_right _ _) (Nat.min_le_right _ _)
        omega

/-- If the loop is run with enough fuel (the caller uses `fuel = rem`), it
stops only because the work or the capacity is exhausted. -/
theorem allocLoop_exhaust (aid : ℕ) (t : String) (d : ℤ) :
    ∀ fuel rem cap, rem ≤ fuel →
      (allocLoop aid t d fuel rem cap).2.1 = 0 ∨
      (allocLoop aid t d fuel rem cap).2.2 = 0 := by
  intro fuel
  induction fuel with
  | zero => intro rem cap h; left; simp [allocLoop]; omega
  | succ fuel ih =>
    intro rem cap hle
    simp only [allocLoop, chunk_eq]
    split
    · next h => simpa using h
    · split
      · next h hm =>
        exfalso
        simp only [Nat.min_eq_zero_iff] at hm
        omega
      · next h hm =>
        apply ih
        have hpos : 0 < min 30 (min rem cap) := Nat.pos_of_ne_zero hm
        omega

/-- At most one block of a single loop run is not a multiple of 30 minutes:
every chunk before the last one is the full nominal 30. -/
theorem allocLoop_frag (aid : ℕ) (t : String) (d : ℤ) :
    ∀ fuel rem cap,
      ((allocLoop aid t d fuel rem cap).1.countP
        (fun b => !decide (30 ∣ b.minutes))) ≤ 1 := by
  intro fuel
  induction fuel with
  | zero => intro rem cap; simp [allocLoop]
  | succ fuel ih =>
    intro rem cap
    simp only [allocLoop, chunk_eq]
    split
    · simp
    · split
      · simp
      · next h hm =>
        simp only [List.countP_cons]
        by_cases h30 : min 30 (min rem cap) = 30
        · have hdvd : (!decide (30 ∣ min 30 (min rem cap))) = false := by
            rw [h30]; decide
          simp only [hdvd, cond_false, Nat.add_zero]
          exact ih _ _
        · have hz : rem - min 30 (min rem cap) = 0 ∨ cap - min 30 (min rem cap) = 0 := by
            omega
          rw [allocLoop_zero _ _ _ _ _ _ hz]
          simp only [List.countP_nil, Nat.add_zero]
          split <;> omega

/-! ### Lemmas about the per-day candidate loop -/

/-- Setting an index to the value it already holds changes nothing. -/
theorem set_self_of_getElem? {α : Type} (l : List α) (i : ℕ) (a : α)
    (h : l[i]? = some a) : l.set i a = l := by
  induction l generalizing i with
  | nil => simp at h
  | cons x xs ih =>
    cases i with
    | zero =>
      simp only [List.getElem?_cons_zero, Option.some.injEq] at h
      simp [h]
    | succ j =>
      simp only [List.getElem?_cons_succ] at h
      simp [ih j h]

/-- Overwriting index `i` with a value that agrees under `f` leaves the
`f`-image of the list unchanged. -/
theorem map_set_of_eq {α : Type} (l : List Scored) (i : ℕ) (a b : Scored)
    (f : Scored → α) (h : l[i]? = some a) (hfb : f b = f a) :
    (l.set i b).map f = l.map f := by
  rw [List.map_set, hfb]
  apply set_self_of_getElem?
  simp [h]

@[simp] theorem eraseRem_id (a : Scored) : (eraseRem a).id = a.id := rfl

@[simp] theorem eraseRem_dueDate (a : Scored) : (eraseRem a).dueDate = a.dueDate := rfl

@[simp] theorem eraseRem_score (a : Scored) : (eraseRem a).score = a.score := rfl

/-- The candidate loop only rewrites `remainingMinutes`. -/
theorem processDay_erase (courses : List CourseRow) (date : ℤ) :
    ∀ idxs scored cap,
      ((processDay courses date scored idxs cap).1).map eraseRem
        = scored.map eraseRem := by
  intro idxs
  induction idxs with
  | nil => intro scored cap; simp [processDay]
  | cons i rest ih =>
    intro scored cap
    simp only [processDay]
    split
    · rfl
    · split
      · exact ih scored cap
      · next a heq =>
        rw [ih]
        exact map_set_of_eq scored i a _ eraseRem heq rfl

/-- Ids are preserved by the candidate loop. -/
theorem processDay_ids (courses : List CourseRow) (date : ℤ)
    (idxs : List ℕ) (scored : List Scored) (cap : ℕ) :
    ((processDay courses date scored idxs cap).1).map Scored.id
      = scored.map Scored.id := by
  have h := congrArg (List.map Scored.id) (processDay_erase courses date idxs scored cap)
  simpa [List.map_map, Function.comp_def] using h

/-- Transfer a lookup along an equality of id images. -/
theorem getElem?_of_map_id_eq {l1 l2 : List Scored}
    (h : l1.map Scored.id = l2.map Scored.id) (j : ℕ) (a : Scored)
    (hj : l1[j]? = some a) : ∃ a2, l2[j]? = some a2 ∧ a2.id = a.id := by
  have h2 := congrArg (fun l => l[j]?) h
  simp only [List.getElem?_map, hj, Option.map_some] at h2
  cases hl : l2[j]? with
  | none => rw [hl] at h2; simp at h2
  | some a2 =>
    rw [hl] at h2
    refine ⟨a2, rfl, ?_⟩
    simp at h2
    omega

/-- How `remSum` changes when one entry's remaining minutes are rewritten. -/
theorem remSum_set_rem (aid : ℕ) (l : List Scored) (i : ℕ) (a : Scored) (r : ℕ)
    (h : l[i]? = some a) :
    remSum aid (l.set i { a with remainingMinutes := r })
        + (if a.id = aid then a.remainingMinutes else 0)
      = remSum aid l + (if a.id = aid then r else 0) := by
  induction l generalizing i with
  | nil => simp at h
  | cons x xs ih =>
    cases i with
    | zero =>
      simp only [List.getElem?_cons_zero, Option.some.injEq] at h
      subst h
      simp only [List.set_cons_zero, remSum_cons]
      by_cases hid : x.id = aid
      · simp only [if_pos hid]
        omega
      · simp only [if_neg hid]
    | succ j =>
      simp only [List.getElem?_cons_succ] at h
      simp only [List.set_cons_succ, remSum_cons]
      have := ih j h
      omega

/-- Conservation through one day's candidate loop: for every assessment id,
the minutes its entries lose are exactly the minutes of the blocks emitted
for that id. -/
theorem processDay_conserve (courses : List CourseRow) (date : ℤ) (aid : ℕ) :
    ∀ idxs scored cap,
      allocatedTo aid (processDay courses date scored idxs cap).2.1
        + remSum aid (processDay courses date scored idxs cap).1
      = remSum aid scored := by
  intro idxs
  induction idxs with
  | nil => intro scored cap; simp [processDay]
  | cons i rest ih =>
    intro scored cap
    simp only [processDay]
    split
    · simp
    · split
      · exact ih scored cap
      · next a heq =>
        have hcons := allocLoop_conserve a.id (blockTitle courses a) date
          a.remainingMinutes a.remainingMinutes cap
        have hset := remSum_set_rem aid scored i a
          (allocLoop a.id (blockTitle courses a) date
            a.remainingMinutes a.remainingMinutes cap).2.1 heq
        have hih := ih (scored.set i
          { a with remainingMinutes :=
              (allocLoop a.id (blockTitle courses a) date
                a.remainingMinutes a.remainingMinutes cap).2.1 })
          (allocLoop a.id (blockTitle courses a) date
            a.remainingMinutes a.remainingMinutes cap).2.2
        simp only [allocatedTo_append]
        by_cases hid : a.id = aid
        · have hall : allocatedTo aid
              (allocLoop a.id (blockTitle courses a) date
                a.remainingMinutes a.remainingMinutes cap).1
              = sumMinutes (allocLoop a.id (blockTitle courses a) date
                a.remainingMinutes a.remainingMinutes cap).1 := by
            apply allocatedTo_of_all
            intro b hb
            rw [(allocLoop_mem _ _ _ _ _ _ b hb).1, hid]
          simp only [if_pos hid] at hset
          omega
        · have hnone : allocatedTo aid
              (allocLoop a.id (blockTitle courses a) date
                a.remainingMinutes a.remainingMinutes cap).1 = 0 := by
            apply allocatedTo_of_none
            intro b hb
            rw [(allocLoop_mem _ _ _ _ _ _ b hb).1]
            exact hid
          simp only [if_neg hid] at hset
          omega

/-- Capacity conservation through one day: the blocks of the day sum to
exactly the capacity consumed. -/
theorem processDay_cap (courses : List CourseRow) (date : ℤ) :
    ∀ idxs scored cap,
      sumMinutes (processDay courses date scored idxs cap).2.1
        + (processDay courses date scored idxs cap).2.2 = cap := by
  intro idxs
  induction idxs with
  | nil => intro scored cap; simp [processDay]
  | cons i rest ih =>
    intro scored cap
    simp only [processDay]
    split
    · simp
    · split
      · exact ih scored cap
      · next a heq =>
        have hcons := (allocLoop_conserve a.id (blockTitle courses a) date
          a.remainingMinutes a.remainingMinutes cap).2
        have hih := ih (scored.set i
          { a with remainingMinutes :=
              (allocLoop a.id (blockTitle courses a) date
                a.remainingMinutes a.remainingMinutes cap).2.1 })
          (allocLoop a.id (blockTitle courses a) date
            a.remainingMinutes a.remainingMinutes cap).2.2
        simp only [sumMinutes_append]
        omega

/-- With zero capacity the candidate loop is a no-op. -/
theorem processDay_capzero (courses : List CourseRow) (date : ℤ)
    (scored : List Scored) (idxs : List ℕ) :
    processDay courses date scored idxs 0 = (scored, [], 0) := by
  cases idxs with
  | nil => rfl
  | cons i rest => simp [processDay]

/-- Provenance of the blocks of one day: each one is dated that day, lasts
between 1 and 30 minutes, and belongs to a scheduled candidate index whose
entry still had remaining work. -/
theorem processDay_mem (courses : List CourseRow) (date : ℤ) :
    ∀ idxs scored cap, ∀ b ∈ (processDay courses date scored idxs cap).2.1,
      b.planDate = date ∧ 0 < b.minutes ∧ b.minutes ≤ 30 ∧
        ∃ i ∈ idxs, ∃ a, scored[i]? = some a ∧ b.assessmentId = a.id ∧
          0 < a.remainingMinutes := by
  intro idxs
  induction idxs with
  | nil => intro scored cap b hb; simp [processDay] at hb
  | cons i rest ih =>
    intro scored cap b hb
    simp only [processDay] at hb
    split at hb
    · simp at hb
    · split at hb
      · next hnone =>
        obtain ⟨h1, h2, h3, j, hj, a2, ha2, hid, hrem⟩ := ih scored cap b hb
        exact ⟨h1, h2, h3, j, by simp [hj], a2, ha2, hid, hrem⟩
      · next a heq =>
        simp only [List.mem_append] at hb
        rcases hb with hb | hb
        · have hm := allocLoop_mem a.id (blockTitle courses a) date
            a.remainingMinutes a.remainingMinutes cap b hb
          have hrem : 0 < a.remainingMinutes := by
            by_contra hz
            have : a.remainingMinutes = 0 := by omega
            rw [allocLoop_zero _ _ _ _ _ _ (Or.inl this)] at hb
            simp at hb
          exact ⟨hm.2.1, hm.2.2.2.2.1, hm.2.2.2.2.2, i, by simp, a, heq, hm.1, hrem⟩
        · obtain ⟨h1, h2, h3, j, hj, a2, ha2, hid, hrem⟩ := ih _ _ b hb
          by_cases hji : j = i
          · subst hji
            have hlt : j < scored.length := (List.getElem?_eq_some_iff.mp heq).1
            rw [List.getElem?_set_self hlt] at ha2
            simp only [Option.some.injEq] at ha2
            refine ⟨h1, h2, h3, j, by simp, a, heq, ?_, ?_⟩
            · have hids : a2.id = a.id := by rw [← ha2]
              rw [hid, hids]
            · rw [← ha2] at hrem
              dsimp only at hrem
              have hc := (allocLoop_conserve a.id (blockTitle courses a) date
                a.remainingMinutes a.remainingMinutes cap).1
              omega
          · rw [List.getElem?_set_ne (fun hh => hji hh.symm)] at ha2
            exact ⟨h1, h2, h3, j, by simp [hj], a2, ha2, hid, hrem⟩

/-- Ids stay unique through one day's loop. -/
theorem set_ids_eq (scored : List Scored) (i : ℕ) (a : Scored) (r : ℕ)
    (heq : scored[i]? = some a) :
    (scored.set i { a with remainingMinutes := r }).map Scored.id
      = scored.map Scored.id :=
  map_set_of_eq scored i a _ Scored.id heq rfl

/-- Per-day fragmentation bound: for a fixed assessment id, at most one of
the day's blocks for that id is not a multiple of 30 minutes (ids must be
unique, as the database primary key guarantees). -/
theorem processDay_frag (courses : List CourseRow) (date : ℤ) (aid : ℕ) :
    ∀ idxs scored cap, (scored.map Scored.id).Nodup →
      ((processDay courses date scored idxs cap).2.1.countP
        (fun b => b.assessmentId == aid && !decide (30 ∣ b.minutes))) ≤ 1 := by
  intro idxs
  induction idxs with
  | nil => intro scored cap hnd; simp [processDay]
  | cons i rest ih =>
    intro scored cap hnd
    simp only [processDay]
    split
    · simp
    · split
      · exact ih scored cap hnd
      · next a heq =>
        simp only [List.countP_append]
        have hnd2 : ((scored.set i
            { a with remainingMinutes :=
                (allocLoop a.id (blockTitle courses a) date
                  a.remainingMinutes a.remainingMinutes cap).2.1 }).map Scored.id).Nodup := by
          rw [set_ids_eq scored i a _ heq]
          exact hnd
        have hhead : ((allocLoop a.id (blockTitle courses a) date
            a.remainingMinutes a.remainingMinutes cap).1.countP
              (fun b => b.assessmentId == aid && !decide (30 ∣ b.minutes))) ≤ 1 := by
          calc ((allocLoop a.id (blockTitle courses a) date
              a.remainingMinutes a.remainingMinutes cap).1.countP
                (fun b => b.assessmentId == aid && !decide (30 ∣ b.minutes)))
              ≤ ((allocLoop a.id (blockTitle courses a) date
                a.remainingMinutes a.remainingMinutes cap).1.countP
                  (fun b => !decide (30 ∣ b.minutes))) := by
                apply List.countP_mono_left
                intro b hb h
                exact (Bool.and_elim_right h)
            _ ≤ 1 := allocLoop_frag _ _ _ _ _ _
        by_cases hid : a.id = aid
        · rcases allocLoop_exhaust a.id (blockTitle courses a) date
            a.remainingMinutes a.remainingMinutes cap (le_refl _) with hrem0 | hcap0
          · have hmore : ((processDay courses date
                (scored.set i { a with remainingMinutes :=
                  (allocLoop a.id (blockTitle courses a) date
                    a.remainingMinutes a.remainingMinutes cap).2.1 }) rest
                (allocLoop a.id (blockTitle courses a) date
                  a.remainingMinutes a.remainingMinutes cap).2.2).2.1.countP
                  (fun b => b.assessmentId == aid && !decide (30 ∣ b.minutes))) = 0 := by
              rw [List.countP_eq_zero]
              intro b hb hpred
              obtain ⟨h1, h2, h3, j, hj, a2, ha2, hbid, hrem⟩ :=
                processDay_mem courses date rest _ _ b hb
              have hbaid : b.assessmentId = aid := by
                have := Bool.and_elim_left hpred
                simpa using this
              have hi : i < scored.length := (List.getElem?_eq_some_iff.mp heq).1
              have hji : j = i := by
                have hlen : j < ((scored.set i
                    { a with remainingMinutes :=
                        (allocLoop a.id (blockTitle courses a) date
                          a.remainingMinutes a.remainingMinutes cap).2.1 }).map
                      Scored.id).length := by
                  have := (List.getElem?_eq_some_iff.mp ha2).1
                  simpa using this
                have ha2id : a2.id = aid := by
                  rw [← hbid]
                  exact hbaid
                have hgj : ((scored.set i
                    { a with remainingMinutes :=
                        (allocLoop a.id (blockTitle courses a) date
                          a.remainingMinutes a.remainingMinutes cap).2.1 }).map
                      Scored.id)[j]? = some aid := by
                  rw [List.getElem?_map, ha2]
                  simp [ha2id]
                have hgi : ((scored.set i
                    { a with remainingMinutes :=
                        (allocLoop a.id (blockTitle courses a) date
                          a.remainingMinutes a.remainingMinutes cap).2.1 }).map
                      Scored.id)[i]? = some aid := by
                  have hset : (scored.set i
                      { a with remainingMinutes :=
                          (allocLoop a.id (blockTitle courses a) date
                            a.remainingMinutes a.remainingMinutes cap).2.1 })[i]?
                      = some { a with remainingMinutes :=
                          (allocLoop a.id (blockTitle courses a) date
                            a.remainingMinutes a.remainingMinutes cap).2.1 } :=
                    List.getElem?_set_self hi
                  rw [List.getElem?_map, hset]
                  simp [hid]
                exact List.getElem?_inj hlen hnd2 (by rw [hgj, hgi])
              subst hji
              have hset : (scored.set j
                  { a with remainingMinutes :=
                      (allocLoop a.id (blockTitle courses a) date
                        a.remainingMinutes a.remainingMinutes cap).2.1 })[j]?
                  = some { a with remainingMinutes :=
                      (allocLoop a.id (blockTitle courses a) date
                        a.remainingMinutes a.remainingMinutes cap).2.1 } :=
                List.getElem?_set_self ((List.getElem?_eq_some_iff.mp heq).1)
              rw [hset] at ha2
              simp only [Option.some.injEq] at ha2
              rw [← ha2] at hrem
              dsimp only at hrem
              omega
            omega
          · rw [hcap0, processDay_capzero]
            simpa using hhead
        · have hzero : ((allocLoop a.id (blockTitle courses a) date
              a.remainingMinutes a.remainingMinutes cap).1.countP
                (fun b => b.assessmentId == aid && !decide (30 ∣ b.minutes))) = 0 := by
            rw [List.countP_eq_zero]
            intro b hb hpred
            have hb2 := (allocLoop_mem _ _ _ _ _ _ b hb).1
            have hbaid : b.assessmentId = aid := by
              have := Bool.and_elim_left hpred
              simpa using this
            exact hid (hb2 ▸ hbaid)
          rw [hzero]
          have := ih (scored.set i
            { a with remainingMinutes :=
                (allocLoop a.id (blockTitle courses a) date
                  a.remainingMinutes a.remainingMinutes cap).2.1 })
            (allocLoop a.id (blockTitle courses a) date
              a.remainingMinutes a.remainingMinutes cap).2.2 hnd2
          omega

/-! ### Lemmas about the candidate filter and the stable sort -/

theorem insertByScore_perm (scored : List Scored) (i : ℕ) (l : List ℕ) :
    (insertByScore scored i l).Perm (i :: l) := by
  induction l with
  | nil => simp [insertByScore]
  | cons j js ih =>
    simp only [insertByScore]
    split
    · exact List.Perm.refl _
    · exact (List.Perm.cons j ih).trans (List.Perm.swap i j js)

theorem sortByScore_perm (scored : List Scored) (l : List ℕ) :
    (sortByScore scored l).Perm l := by
  induction l with
  | nil => exact List.Perm.refl _
  | cons i is ih =>
    exact (insertByScore_perm scored i _).trans (List.Perm.cons i ih)

theorem mem_sortByScore (scored : List Scored) (l : List ℕ) (i : ℕ) :
    i ∈ sortByScore scored l ↔ i ∈ l :=
  (sortByScore_perm scored l).mem_iff

/-- Membership in a day's candidate list. -/
theorem mem_dayCandidates (scored : List Scored) (date : ℤ) (i : ℕ) :
    i ∈ dayCandidates scored date ↔
      ∃ a, scored[i]? = some a ∧ isCandidate date a = true := by
  rw [dayCandidates, mem_sortByScore, List.mem_filter, List.mem_range]
  constructor
  · rintro ⟨hlt, hp⟩
    cases heq : scored[i]? with
    | none => rw [heq] at hp; simp at hp
    | some a =>
      rw [heq] at hp
      exact ⟨a, rfl, hp⟩
  · rintro ⟨a, ha, hc⟩
    refine ⟨(List.getElem?_eq_some_iff.mp ha).1, ?_⟩
    rw [ha]
    exact hc

/-- A `<`-sorted list of naturals whose members are exactly `{i, j}` with
`i < j` is `[i, j]`. -/
theorem sorted_pair {l : List ℕ} {i j : ℕ} (hs : List.Pairwise (fun x y => x < y) l)
    (hmem : ∀ k, k ∈ l ↔ k = i ∨ k = j) (hij : i < j) : l = [i, j] := by
  match l, hs with
  | [], _ =>
    exact absurd ((hmem i).mpr (Or.inl rfl)) (List.not_mem_nil i)
  | [x], _ =>
    have hi : i = x := by simpa using (hmem i).mpr (Or.inl rfl)
    have hj : j = x := by simpa using (hmem j).mpr (Or.inr rfl)
    omega
  | x :: y :: rest, hs =>
    have hpx := List.pairwise_cons.mp hs
    have hpy := List.pairwise_cons.mp hpx.2
    have hxmem := (hmem x).mp (by simp)
    have hymem := (hmem y).mp (by simp)
    have hxy : x < y := hpx.1 y (by simp)
    have hx : x = i := by
      rcases hxmem with h | h
      · exact h
      · exfalso
        have hi := (hmem i).mpr (Or.inl rfl)
        simp only [List.mem_cons] at hi
        rcases hi with hh | hh | hh
        · omega
        · have := hpx.1 i (by simp [hh]); omega
        · have := hpx.1 i (by simp [hh]); omega
    have hy : y = j := by
      rcases hymem with h | h
      · omega
      · exact h
    have hrest : rest = [] := by
      cases rest with
      | nil => rfl
      | cons z zs =>
        exfalso
        have hz := (hmem z).mp (by simp)
        have h1 := hpx.1 z (by simp)
        have h2 := hpy.1 z (by simp)
        omega
    rw [hx, hy, hrest]

/-- When exactly two indices are candidates and one has strictly higher
score, the day's sorted candidate list is that pair in score order. -/
theorem dayCandidates_pair (scored : List Scored) (date : ℤ) (i j : ℕ)
    (a b : Scored) (ha : scored[i]? = some a) (hb : scored[j]? = some b)
    (hij : i ≠ j)
    (hcand : ∀ k c, scored[k]? = some c →
      (isCandidate date c = true ↔ (k = i ∨ k = j)))
    (hs : b.score < a.score) :
    dayCandidates scored date = [i, j] := by
  have hi : i < scored.length := (List.getElem?_eq_some_iff.mp ha).1
  have hj : j < scored.length := (List.getElem?_eq_some_iff.mp hb).1
  have hmem : ∀ k, k ∈ ((List.range scored.length).filter fun k =>
      match scored[k]? with
      | some c => isCandidate date c
      | none => false) ↔ k = i ∨ k = j := by
    intro k
    rw [List.mem_filter, List.mem_range]
    constructor
    · rintro ⟨hlt, hp⟩
      cases heq : scored[k]? with
      | none => rw [heq] at hp; simp at hp
      | some c =>
        rw [heq] at hp
        exact (hcand k c heq).mp hp
    · rintro (rfl | rfl)
      · refine ⟨hi, ?_⟩
        rw [ha]
        exact (hcand k a ha).mpr (Or.inl rfl)
      · refine ⟨hj, ?_⟩
        rw [hb]
        exact (hcand k b hb).mpr (Or.inr rfl)
  have hsorted : List.Pairwise (fun x y => x < y)
      ((List.range scored.length).filter fun k =>
        match scored[k]? with
        | some c => isCandidate date c
        | none => false) :=
    (List.pairwise_lt_range scored.length).filter _
  have hsa : scoreAt scored i = a.score := by simp [scoreAt, ha]
  have hsb : scoreAt scored j = b.score := by simp [scoreAt, hb]
  rcases Nat.lt_or_ge i j with hlt | hge
  · have hfil := sorted_pair hsorted hmem hlt
    rw [dayCandidates, hfil]
    simp only [sortByScore, insertByScore]
    rw [if_pos]
    rw [hsa, hsb]
    exact le_of_lt hs
  · have hlt : j < i := by omega
    have hfil := sorted_pair hsorted (fun k => (hmem k).trans or_comm) hlt
    rw [dayCandidates, hfil]
    simp only [sortByScore, insertByScore]
    rw [if_neg]
    rw [hsa, hsb]
    exact not_le_of_lt hs

/-- Two-candidate day with capacity at most the better candidate's need:
the higher-scored assessment takes every block and the other is untouched. -/
theorem processDay_two_candidates (courses : List CourseRow) (date : ℤ)
    (scored : List Scored) (cap : ℕ) (i j : ℕ) (a b : Scored)
    (ha : scored[i]? = some a) (hb : scored[j]? = some b) (hij : i ≠ j)
    (hcand : ∀ k c, scored[k]? = some c →
      (isCandidate date c = true ↔ (k = i ∨ k = j)))
    (hs : b.score < a.score) (hcap0 : 0 < cap)
    (hcaple : cap ≤ a.remainingMinutes) :
    (∀ blk ∈ (processDay courses date scored
        (dayCandidates scored date) cap).2.1, blk.assessmentId = a.id) ∧
      sumMinutes (processDay courses date scored
        (dayCandidates scored date) cap).2.1 = cap ∧
      (processDay courses date scored
        (dayCandidates scored date) cap).1[j]? = some b := by
  rw [dayCandidates_pair scored date i j a b ha hb hij hcand hs]
  have hcapne : ¬(cap = 0) := by omega
  have hcons := allocLoop_conserve a.id (blockTitle courses a) date
    a.remainingMinutes a.remainingMinutes cap
  have hexh := allocLoop_exhaust a.id (blockTitle courses a) date
    a.remainingMinutes a.remainingMinutes cap (le_refl _)
  have hcap2 : (allocLoop a.id (blockTitle courses a) date
      a.remainingMinutes a.remainingMinutes cap).2.2 = 0 := by
    omega
  simp only [processDay, if_neg hcapne, ha]
  rw [hcap2]
  simp only [eq_self_iff_true, if_true]
  refine ⟨?_, ?_, ?_⟩
  · intro blk hblk
    simp only [List.append_nil] at hblk
    exact (allocLoop_mem _ _ _ _ _ _ blk hblk).1
  · simp only [List.append_nil]
    omega
  · rw [List.getElem?_set_ne hij]
    exact hb

/-! ### Lemmas about the seven-day loop -/

@[simp] theorem sumMinutes_filter_le (p : PlanRow → Bool) (bs : List PlanRow) :
    sumMinutes (bs.filter p) ≤ sumMinutes bs := by
  induction bs with
  | nil => simp
  | cons b bs ih =>
    rw [List.filter_cons]
    split
    · simp only [sumMinutes_cons]
      omega
    · simp only [sumMinutes_cons]
      omega

theorem stepDay_erase (inp : GenInputs) (st : List Scored × List PlanRow) (d : ℕ) :
    ((stepDay inp st d).1).map eraseRem = st.1.map eraseRem := by
  simp only [stepDay]
  split
  · rfl
  · exact processDay_erase inp.courseRows (inp.today + d) _ st.1 _

theorem stepDay_conserve (inp : GenInputs) (st : List Scored × List PlanRow)
    (d : ℕ) (aid : ℕ) :
    allocatedTo aid (stepDay inp st d).2 + remSum aid (stepDay inp st d).1
      = allocatedTo aid st.2 + remSum aid st.1 := by
  simp only [stepDay]
  split
  · rfl
  · simp only [allocatedTo_append]
    have := processDay_conserve inp.courseRows (inp.today + d) aid
      (dayCandidates st.1 (inp.today + d)) st.1 (capacityOfDay inp d).toNat
    omega

theorem foldDays_erase (inp : GenInputs) :
    ∀ (ds : List ℕ) (st : List Scored × List PlanRow),
      ((ds.foldl (stepDay inp) st).1).map eraseRem = st.1.map eraseRem := by
  intro ds
  induction ds with
  | nil => intro st; rfl
  | cons d ds ih =>
    intro st
    rw [List.foldl_cons, ih (stepDay inp st d), stepDay_erase]

theorem foldDays_conserve (inp : GenInputs) (aid : ℕ) :
    ∀ (ds : List ℕ) (st : List Scored × List PlanRow),
      allocatedTo aid (ds.foldl (stepDay inp) st).2
          + remSum aid (ds.foldl (stepDay inp) st).1
        = allocatedTo aid st.2 + remSum aid st.1 := by
  intro ds
  induction ds with
  | nil => intro st; rfl
  | cons d ds ih =>
    intro st
    rw [List.foldl_cons, ih (stepDay inp st d), stepDay_conserve]

theorem foldDays_skip (inp : GenInputs) :
    ∀ (ds : List ℕ) (st : List Scored × List PlanRow),
      (∀ d ∈ ds, capacityOfDay inp d ≤ 0) → ds.foldl (stepDay inp) st = st := by
  intro ds
  induction ds with
  | nil => intro st _; rfl
  | cons d ds ih =>
    intro st h
    rw [List.foldl_cons]
    have hd : capacityOfDay inp d ≤ 0 := h d (by simp)
    have hstep : stepDay inp st d = st := by
      simp only [stepDay]
      rw [if_pos hd]
    rw [hstep]
    exact ih st (fun x hx => h x (by simp [hx]))

/-- Provenance of the blocks produced by the day loop: every block that is
not inherited from the accumulator is dated on one of the processed days
with positive capacity, lasts 1..30 minutes, and belongs to a scored
assessment that was a candidate on that date. -/
theorem foldDays_mem (inp : GenInputs) :
    ∀ (ds : List ℕ) (st : List Scored × List PlanRow),
      ∀ b ∈ (ds.foldl (stepDay inp) st).2,
        b ∈ st.2 ∨ ∃ d ∈ ds, 0 < capacityOfDay inp d ∧
          b.planDate = inp.today + d ∧ 0 < b.minutes ∧ b.minutes ≤ 30 ∧
          ∃ a ∈ st.1, b.assessmentId = a.id ∧ b.planDate ≤ a.dueDate := by
  intro ds
  induction ds with
  | nil => intro st b hb; exact Or.inl hb
  | cons d ds ih =>
    intro st b hb
    rw [List.foldl_cons] at hb
    have hstep : ∀ c ∈ (stepDay inp st d).2,
        c ∈ st.2 ∨ (0 < capacityOfDay inp d ∧ c.planDate = inp.today + d ∧
          0 < c.minutes ∧ c.minutes ≤ 30 ∧
          ∃ a ∈ st.1, c.assessmentId = a.id ∧ c.planDate ≤ a.dueDate) := by
      intro c hc
      simp only [stepDay] at hc
      split at hc
      · exact Or.inl hc
      · next hcap =>
        simp only [List.mem_append] at hc
        rcases hc with hc | hc
        · exact Or.inl hc
        · right
          obtain ⟨h1, h2, h3, k, hk, a, hka, hid, hrem⟩ :=
            processDay_mem inp.courseRows (inp.today + d) _ st.1 _ c hc
          obtain ⟨a2, hka2, hcand⟩ := (mem_dayCandidates st.1 (inp.today + d) k).mp hk
          rw [hka] at hka2
          simp only [Option.some.injEq] at hka2
          subst hka2
          simp only [isCandidate, Bool.and_eq_true, decide_eq_true_eq] at hcand
          exact ⟨by omega, h1, h2, h3, a,
            List.getElem?_mem hka, hid, h1 ▸ hcand.2⟩
    rcases ih (stepDay inp st d) b hb with hb2 | ⟨d2, hd2, hcap2, hdate2, hm1, hm2, a, hmem, hid2, hdue2⟩
    · rcases hstep b hb2 with h | ⟨hcap, hdate, hm1, hm2, ha⟩
      · exact Or.inl h
      · exact Or.inr ⟨d, by simp, hcap, hdate, hm1, hm2, ha⟩
    · -- transfer the scored entry back through the day step
      have herase := stepDay_erase inp st d
      have hmem2 : eraseRem a ∈ ((stepDay inp st d).1).map eraseRem :=
        List.mem_map_of_mem eraseRem hmem
      rw [herase] at hmem2
      obtain ⟨a0, ha0, heq0⟩ := List.mem_map.mp hmem2
      have hid0 : a0.id = a.id := by
        have := congrArg Scored.id heq0
        simpa using this
      have hdue0 : a0.dueDate = a.dueDate := by
        have := congrArg Scored.dueDate heq0
        simpa using this
      exact Or.inr ⟨d2, by simp [hd2], hcap2, hdate2, hm1, hm2, a0, ha0,
        hid0 ▸ hid2, hdue0 ▸ hdue2⟩

/-- Per-date capacity bound through the day loop, counted per occurrence of
the day in the processed list. -/
theorem foldDays_capcount (inp : GenInputs) (e : ℕ) :
    ∀ (ds : List ℕ) (st : List Scored × List PlanRow),
      sumMinutes ((ds.foldl (stepDay inp) st).2.filter
          (fun b => b.planDate == inp.today + e))
        ≤ sumMinutes (st.2.filter (fun b => b.planDate == inp.today + e))
          + (ds.count e) * (capacityOfDay inp e).toNat := by
  intro ds
  induction ds with
  | nil => intro st; simp
  | cons d ds ih =>
    intro st
    rw [List.foldl_cons]
    have hih := ih (stepDay inp st d)
    by_cases hde : d = e
    · subst hde
      have hstep : sumMinutes ((stepDay inp st d).2.filter
          (fun b => b.planDate == inp.today + d))
          ≤ sumMinutes (st.2.filter (fun b => b.planDate == inp.today + d))
            + (capacityOfDay inp d).toNat := by
        simp only [stepDay]
        split
        · omega
        · rw [List.filter_append, sumMinutes_append]
          have hsum := processDay_cap inp.courseRows (inp.today + d)
            (dayCandidates st.1 (inp.today + d)) st.1 (capacityOfDay inp d).toNat
          have hle := sumMinutes_filter_le
            (fun b => b.planDate == inp.today + d)
            (processDay inp.courseRows (inp.today + d) st.1
              (dayCandidates st.1 (inp.today + d)) (capacityOfDay inp d).toNat).2.1
          omega
      rw [List.count_cons_self]
      have hexp : (ds.count d + 1) * (capacityOfDay inp d).toNat
          = ds.count d * (capacityOfDay inp d).toNat + (capacityOfDay inp d).toNat := by
        ring
      omega
    · have hstep : sumMinutes ((stepDay inp st d).2.filter
          (fun b => b.planDate == inp.today + e))
          = sumMinutes (st.2.filter (fun b => b.planDate == inp.today + e)) := by
        simp only [stepDay]
        split
        · rfl
        · rw [List.filter_append, sumMinutes_append]
          have hnone : ((processDay inp.courseRows (inp.today + d) st.1
              (dayCandidates st.1 (inp.today + d))
              (capacityOfDay inp d).toNat).2.1.filter
                (fun b => b.planDate == inp.today + e)) = [] := by
            rw [List.filter_eq_nil_iff]
            intro c hc
            have hdate := (processDay_mem inp.courseRows (inp.today + d) _ st.1 _ c hc).1
            simp only [beq_iff_eq, hdate]
            intro hcontra
            have : (d : ℤ) = (e : ℤ) := by omega
            exact hde (by exact_mod_cast this)
          rw [hnone]
          simp
      rw [List.count_cons_of_ne (fun h => hde h.symm)]
      omega

theorem stepDay_ids (inp : GenInputs) (st : List Scored × List PlanRow) (d : ℕ) :
    ((stepDay inp st d).1).map Scored.id = st.1.map Scored.id := by
  have h := congrArg (List.map Scored.id) (stepDay_erase inp st d)
  simpa [List.map_map, Function.comp_def] using h

theorem foldDays_ids (inp : GenInputs) (ds : List ℕ)
    (st : List Scored × List PlanRow) :
    ((ds.foldl (stepDay inp) st).1).map Scored.id = st.1.map Scored.id := by
  have h := congrArg (List.map Scored.id) (foldDays_erase inp ds st)
  simpa [List.map_map, Function.comp_def] using h

/-- Per-date, per-assessment fragmentation bound through the day loop. -/
theorem foldDays_frag (inp : GenInputs) (aid : ℕ) (e : ℕ) :
    ∀ (ds : List ℕ) (st : List Scored × List PlanRow),
      (st.1.map Scored.id).Nodup → ds.Nodup →
      ((ds.foldl (stepDay inp) st).2.countP
        (fun b => b.assessmentId == aid && b.planDate == inp.today + e
          && !decide (30 ∣ b.minutes)))
        ≤ (st.2.countP (fun b => b.assessmentId == aid
            && b.planDate == inp.today + e && !decide (30 ∣ b.minutes)))
          + (if e ∈ ds then 1 else 0) := by
  intro ds
  induction ds with
  | nil => intro st hnd1 hnd2; simp
  | cons d ds ih =>
    intro st hnd1 hnd2
    rw [List.foldl_cons]
    have hnd1' : (((stepDay inp st d).1).map Scored.id).Nodup := by
      rw [stepDay_ids]
      exact hnd1
    have hih := ih (stepDay inp st d) hnd1' (List.nodup_cons.mp hnd2).2
    by_cases hde : d = e
    · subst hde
      have hnotin : d ∉ ds := (List.nodup_cons.mp hnd2).1
      rw [if_neg hnotin] at hih
      have hstep : ((stepDay inp st d).2.countP
          (fun b => b.assessmentId == aid && b.planDate == inp.today + d
            && !decide (30 ∣ b.minutes)))
          ≤ (st.2.countP (fun b => b.assessmentId == aid
              && b.planDate == inp.today + d && !decide (30 ∣ b.minutes))) + 1 := by
        simp only [stepDay]
        split
        · omega
        · rw [List.countP_append]
          have hbs : ((processDay inp.courseRows (inp.today + d) st.1
              (dayCandidates st.1 (inp.today + d))
              (capacityOfDay inp d).toNat).2.1.countP
                (fun b => b.assessmentId == aid && b.planDate == inp.today + d
                  && !decide (30 ∣ b.minutes))) ≤ 1 := by
            calc ((processDay inp.courseRows (inp.today + d) st.1
                (dayCandidates st.1 (inp.today + d))
                (capacityOfDay inp d).toNat).2.1.countP
                  (fun b => b.assessmentId == aid && b.planDate == inp.today + d
                    && !decide (30 ∣ b.minutes)))
                ≤ ((processDay inp.courseRows (inp.today + d) st.1
                  (dayCandidates st.1 (inp.today + d))
                  (capacityOfDay inp d).toNat).2.1.countP
                    (fun b => b.assessmentId == aid && !decide (30 ∣ b.minutes))) := by
                  apply List.countP_mono_left
                  intro b hb h
                  simp only [Bool.and_eq_true] at h
                  simp only [Bool.and_eq_true]
                  exact ⟨h.1.1, h.2⟩
              _ ≤ 1 := processDay_frag inp.courseRows (inp.today + d) aid
                  (dayCandidates st.1 (inp.today + d)) st.1
                  (capacityOfDay inp d).toNat hnd1
          omega
      rw [if_pos (by simp : d ∈ d :: ds)]
      omega
    · have hstep : ((stepDay inp st d).2.countP
          (fun b => b.assessmentId == aid && b.planDate == inp.today + e
            && !decide (30 ∣ b.minutes)))
          = (st.2.countP (fun b => b.assessmentId == aid
              && b.planDate == inp.today + e && !decide (30 ∣ b.minutes))) := by
        simp only [stepDay]
        split
        · rfl
        · rw [List.countP_append]
          have hbs : ((processDay inp.courseRows (inp.today + d) st.1
              (dayCandidates st.1 (inp.today + d))
              (capacityOfDay inp d).toNat).2.1.countP
                (fun b => b.assessmentId == aid && b.planDate == inp.today + e
                  && !decide (30 ∣ b.minutes))) = 0 := by
            rw [List.countP_eq_zero]
            intro c hc hpred
            have hdate := (processDay_mem inp.courseRows (inp.today + d) _ st.1 _ c hc).1
            simp only [Bool.and_eq_true, beq_iff_eq] at hpred
            have : inp.today + (d : ℤ) = inp.today + e := by
              rw [← hdate]
              exact hpred.1.2
            have : (d : ℤ) = (e : ℤ) := by omega
            exact hde (by exact_mod_cast this)
          omega
      have hne : ¬ e = d := fun h => hde h.symm
      have hmem : (if e ∈ d :: ds then (1:ℕ) else 0) = (if e ∈ ds then 1 else 0) := by
        simp [List.mem_cons, hne]
      rw [hmem]
      omega

/-! ### Run-level corollaries -/

theorem scoredInit_ids (inp : GenInputs) :
    (scoredInit inp).map Scored.id
      = (qualifyingAssessments inp).map AssessmentRow.id := by
  simp [scoredInit, List.map_map, Function.comp_def, mkScored]

theorem finalScored_ids (inp : GenInputs) :
    (finalScored inp).map Scored.id = (scoredInit inp).map Scored.id := by
  have := foldDays_ids inp (List.range 7) (scoredInit inp, [])
  simpa [finalScored, runAllDays] using this

/-- With unique ids, `remSum` of a member is just its own counter. -/
theorem remSum_of_nodup :
    ∀ (L : List Scored), (L.map Scored.id).Nodup →
      ∀ x ∈ L, remSum x.id L = x.remainingMinutes := by
  intro L
  induction L with
  | nil => intro _ x hx; simp at hx
  | cons y ys ih =>
    intro hnd x hx
    rw [List.map_cons, List.nodup_cons] at hnd
    rcases List.mem_cons.mp hx with rfl | hx2
    · rw [remSum_cons, if_pos rfl]
      have hzero : remSum x.id ys = 0 := by
        have hfil : ys.filter (fun a => a.id == x.id) = [] := by
          rw [List.filter_eq_nil_iff]
          intro a ha
          simp only [beq_iff_eq]
          intro hcontra
          exact hnd.1 (hcontra ▸ List.mem_map_of_mem Scored.id ha)
        unfold remSum
        rw [hfil]
        rfl
      rw [hzero]
      omega
    · have hne : y.id ≠ x.id := by
        intro h
        exact hnd.1 (h ▸ List.mem_map_of_mem Scored.id hx2)
      rw [remSum_cons, if_neg hne, ih hnd.2 x hx2]
      omega

theorem planRows_conserve (inp : GenInputs) (aid : ℕ) :
    allocatedTo aid (planRows inp) + remSum aid (finalScored inp)
      = remSum aid (scoredInit inp) := by
  have := foldDays_conserve inp aid (List.range 7) (scoredInit inp, [])
  simpa [planRows, finalScored, runAllDays] using this

theorem planRows_mem (inp : GenInputs) :
    ∀ b ∈ planRows inp, ∃ d ∈ List.range 7, 0 < capacityOfDay inp d ∧
      b.planDate = inp.today + d ∧ 0 < b.minutes ∧ b.minutes ≤ 30 ∧
      ∃ a ∈ scoredInit inp, b.assessmentId = a.id ∧ b.planDate ≤ a.dueDate := by
  intro b hb
  have := foldDays_mem inp (List.range 7) (scoredInit inp, []) b hb
  rcases this with h | h
  · simp at h
  · exact h

theorem count_range_seven (e : ℕ) (h : e < 7) : (List.range 7).count e = 1 := by
  interval_cases e <;> decide

theorem planRows_capacity (inp : GenInputs) (e : ℕ) (he : e < 7) :
    sumMinutes ((planRows inp).filter (fun b => b.planDate == inp.today + e))
      ≤ (capacityOfDay inp e).toNat := by
  have := foldDays_capcount inp e (List.range 7) (scoredInit inp, [])
  rw [count_range_seven e he] at this
  simpa [planRows, runAllDays] using this

theorem shortfall_eq (inp : GenInputs) :
    shortfallMinutes inp = ((finalScored inp).map Scored.remainingMinutes).sum := by
  unfold shortfallMinutes remainingWork
  split <;> omega

theorem jsRound_nonneg (q : ℚ) (h : 0 ≤ q) : 0 ≤ jsRound q := by
  unfold jsRound
  rw [show ((0:ℤ) = 0) from rfl]
  exact Rat.le_floor.mpr (by push_cast; linarith)

theorem hoursForWeekday_nonneg (rows : List AvailRow)
    (h : ∀ r ∈ rows, 0 ≤ r.hours) (wd : ℤ) : 0 ≤ hoursForWeekday rows wd := by
  unfold hoursForWeekday
  cases hf : rows.reverse.find? (fun r => r.weekday == wd) with
  | none => norm_num
  | some r =>
    have hr : r ∈ rows.reverse := List.mem_of_find?_eq_some hf
    exact h r (List.mem_reverse.mp hr)

theorem capacityOfDay_nonneg (inp : GenInputs)
    (h : ∀ r ∈ inp.availRows, 0 ≤ r.hours) (d : ℕ) :
    0 ≤ capacityOfDay inp d := by
  apply jsRound_nonneg
  have := hoursForWeekday_nonneg inp.availRows h ((inp.today + d) % 7)
  positivity

theorem sumMinutes_ge_of_mem (bs : List PlanRow) (b : PlanRow) (hb : b ∈ bs) :
    b.minutes ≤ sumMinutes bs := by
  induction bs with
  | nil => simp at hb
  | cons c cs ih =>
    rcases List.mem_cons.mp hb with rfl | hb2
    · simp only [sumMinutes_cons]
      omega
    · have := ih hb2
      simp only [sumMinutes_cons]
      omega

theorem planRows_inWindow (inp : GenInputs) :
    ∀ b ∈ planRows inp, inWindow inp b = true := by
  intro b hb
  obtain ⟨d, hd, _, hdate, _⟩ := planRows_mem inp b hb
  have hmem : b.planDate ∈ windowDates inp := by
    rw [hdate]
    unfold windowDates
    exact List.mem_map_of_mem (fun i : ℕ => inp.today + (i:ℤ)) hd
  unfold inWindow
  exact List.elem_iff.mpr hmem

/-! ### The claims -/

/-- C1: Conservation of work.  For every eligible (qualifying) assessment
with a positive hour estimate, the minutes allocated to it across the whole
plan plus its leftover counter — its contribution to `shortfallMinutes`,
which is exactly the sum of the leftover counters — equal
`round(estimatedHours × 60)` exactly. -/
theorem C1_conservation (inp : GenInputs) (a : AssessmentRow)
    (hnd : ((qualifyingAssessments inp).map AssessmentRow.id).Nodup)
    (ha : a ∈ qualifyingAssessments inp) (hpos : 0 < a.estimatedHours) :
    ((allocatedTo a.id (planRows inp) : ℤ) + (remSum a.id (finalScored inp) : ℤ)
        = jsRound (a.estimatedHours * 60)) ∧
      shortfallMinutes inp = ((finalScored inp).map Scored.remainingMinutes).sum := by
  refine ⟨?_, shortfall_eq inp⟩
  have hnds : ((scoredInit inp).map Scored.id).Nodup := by
    rw [scoredInit_ids]
    exact hnd
  have hmem : mkScored inp a ∈ scoredInit inp :=
    List.mem_map_of_mem (mkScored inp) ha
  have hinit := remSum_of_nodup (scoredInit inp) hnds (mkScored inp a) hmem
  have hid : (mkScored inp a).id = a.id := rfl
  have hrem : (mkScored inp a).remainingMinutes
      = (max 0 (jsRound (a.estimatedHours * 60))).toNat := rfl
  rw [hid, hrem] at hinit
  have hnn : 0 ≤ jsRound (a.estimatedHours * 60) := by
    apply jsRound_nonneg
    have : (0:ℚ) ≤ a.estimatedHours := le_of_lt hpos
    positivity
  have hc := planRows_conserve inp a.id
  omega

/-- C2: Capacity invariant.  Under the spec's domain assumption that every
availability entry is non-negative, the blocks of each of the 7 window dates
sum to at most `round(hoursAvailable(weekday) × 60)` minutes, where a weekday
missing from the profile counts as 2 hours (the default built into
`hoursForWeekday`). -/
theorem C2_capacity_invariant (inp : GenInputs)
    (hnn : ∀ r ∈ inp.availRows, 0 ≤ r.hours) :
    ∀ d : ℕ, d < 7 →
      (sumMinutes ((planRows inp).filter
          (fun b => b.planDate == inp.today + d)) : ℤ)
        ≤ jsRound (hoursForWeekday inp.availRows ((inp.today + d) % 7) * 60) := by
  intro d hd
  have h1 := planRows_capacity inp d hd
  have h2 := capacityOfDay_nonneg inp hnn d
  have h3 : capacityOfDay inp d
      = jsRound (hoursForWeekday inp.availRows ((inp.today + d) % 7) * 60) := rfl
  omega

/-- C10: Non-positive estimates are inert.  A qualifying assessment whose
estimate rounds to zero or fewer minutes receives no study blocks and
contributes exactly 0 to the shortfall: its clamped counter starts at 0 and
stays there. -/
theorem C10_zero_estimate (inp : GenInputs) (a : AssessmentRow)
    (hnd : ((qualifyingAssessments inp).map AssessmentRow.id).Nodup)
    (ha : a ∈ qualifyingAssessments inp)
    (hz : jsRound (a.estimatedHours * 60) ≤ 0) :
    ((planRows inp).filter (fun b => b.assessmentId == a.id)) = [] ∧
      remSum a.id (finalScored inp) = 0 := by
  have hnds : ((scoredInit inp).map Scored.id).Nodup := by
    rw [scoredInit_ids]
    exact hnd
  have hmem : mkScored inp a ∈ scoredInit inp :=
    List.mem_map_of_mem (mkScored inp) ha
  have hinit := remSum_of_nodup (scoredInit inp) hnds (mkScored inp a) hmem
  have hid : (mkScored inp a).id = a.id := rfl
  have hrem : (mkScored inp a).remainingMinutes
      = (max 0 (jsRound (a.estimatedHours * 60))).toNat := rfl
  rw [hid, hrem] at hinit
  have hzero : remSum a.id (scoredInit inp) = 0 := by
    rw [hinit]
    omega
  have hc := planRows_conserve inp a.id
  have halloc : allocatedTo a.id (planRows inp) = 0 := by omega
  refine ⟨?_, by omega⟩
  rw [List.filter_eq_nil_iff]
  intro b hb hbid
  have hposm : 0 < b.minutes := by
    obtain ⟨_, _, _, _, hm, _⟩ := planRows_mem inp b hb
    exact hm
  have hble : b.minutes ≤ allocatedTo a.id (planRows inp) := by
    unfold allocatedTo
    apply sumMinutes_ge_of_mem
    rw [List.mem_filter]
    exact ⟨hb, hbid⟩
  omega

/-- C7: Due-date boundary.  With unique assessment ids, every generated block
that references a qualifying assessment is dated no later than that
assessment's due date. -/
theorem C7_due_date_boundary (inp : GenInputs) (a : AssessmentRow) (b : PlanRow)
    (hnd : ((qualifyingAssessments inp).map AssessmentRow.id).Nodup)
    (ha : a ∈ qualifyingAssessments inp) (hb : b ∈ planRows inp)
    (hid : b.assessmentId = a.id) :
    b.planDate ≤ a.dueDate := by
  obtain ⟨d, _, _, hdate, _, _, x, hx, hbid, hdue⟩ := planRows_mem inp b hb
  obtain ⟨a2, ha2, hxa2⟩ := List.mem_map.mp hx
  have hids : a2.id = a.id := by
    have h1 : x.id = a2.id := by rw [← hxa2]; rfl
    rw [← h1, ← hbid, hid]
  have haa : a2 = a := List.inj_on_of_nodup_map hnd ha2 ha hids
  have hdu : x.dueDate = a.dueDate := by
    rw [← hxa2, ← haa]
    rfl
  rw [← hdu]
  exact hdue

/-- C9: Zero-capacity safety.  With non-negative availability entries, a day
whose rounded capacity is ≤ 0 contributes no blocks; zero total weekly
capacity forces an empty plan; hence the source's warning branch guarded by
`planRows.length > 0 && totalCapacity === 0` can never be taken. -/
theorem C9_zero_capacity_safety (inp : GenInputs)
    (hnn : ∀ r ∈ inp.availRows, 0 ≤ r.hours) :
    (∀ d : ℕ, d < 7 → capacityOfDay inp d ≤ 0 →
        (planRows inp).filter (fun b => b.planDate == inp.today + d) = []) ∧
      (totalCapacity inp = 0 → planRows inp = []) ∧
      ¬ (planRows inp ≠ [] ∧ totalCapacity inp = 0) := by
  have hzero : totalCapacity inp = 0 → planRows inp = [] := by
    intro h0
    have hall : ∀ d ∈ List.range 7, capacityOfDay inp d ≤ 0 := by
      intro d hd
      have hle : capacityOfDay inp d ≤ ((List.range 7).map (capacityOfDay inp)).sum := by
        apply List.single_le_sum
        · intro x hx
          obtain ⟨e, _, he⟩ := List.mem_map.mp hx
          rw [← he]
          exact capacityOfDay_nonneg inp hnn e
        · exact List.mem_map_of_mem (capacityOfDay inp) hd
      have : ((List.range 7).map (capacityOfDay inp)).sum = 0 := h0
      omega
    have := foldDays_skip inp (List.range 7) (scoredInit inp, []) hall
    unfold planRows runAllDays
    rw [this]
  refine ⟨?_, hzero, ?_⟩
  · intro d hd hcap
    have h1 := planRows_capacity inp d hd
    have hcap0 : (capacityOfDay inp d).toNat = 0 := by omega
    rw [hcap0] at h1
    rw [List.eq_nil_iff_forall_not_mem]
    intro b hbmem
    have hb : b ∈ planRows inp := (List.mem_filter.mp hbmem).1
    obtain ⟨_, _, _, _, hm, _⟩ := planRows_mem inp b hb
    have := sumMinutes_ge_of_mem _ b hbmem
    omega
  · rintro ⟨hne, h0⟩
    exact hne (hzero h0)

/-- C3 counterexample: a run in which zero assessments qualify takes the
early-return path and never touches `plan_items`, so a stale block dated
inside the window survives the run — the stored window blocks are not the
(empty) set of blocks produced by that run. -/
theorem C3_window_counterexample :
    qualifyingAssessments inpNoAssessments = [] ∧
      planRows inpNoAssessments = [] ∧
      ((generatePlanForUser inpNoAssessments staleStore).1.planItems.filter
        (fun b => inWindow inpNoAssessments b)) ≠ planRows inpNoAssessments := by
  decide

/-- C3 (amended): whenever at least one assessment qualifies, the run deletes
every stored block dated in the 7-day window before inserting its own, so the
stored window blocks afterwards are exactly the run's output; a run in which
zero assessments qualify leaves `plan_items` untouched. -/
theorem C3_window_replacement (inp : GenInputs) (store : Store)
    (hq : qualifyingAssessments inp ≠ []) :
    ((generatePlanForUser inp store).1.planItems.filter
        (fun b => inWindow inp b)) = planRows inp ∧
      ∀ b ∈ (generatePlanForUser inp store).1.planItems,
        b ∈ store.planItems ∨ b ∈ planRows inp := by
  have hqe : ¬ ((qualifyingAssessments inp).isEmpty = true) := by
    simp [List.isEmpty_iff, hq]
  simp only [generatePlanForUser, if_neg hqe]
  by_cases hr : (planRows inp).isEmpty = true
  · rw [if_pos hr]
    have hrows : planRows inp = [] := List.isEmpty_iff.mp hr
    constructor
    · rw [hrows, List.filter_filter, List.filter_eq_nil_iff]
      intro b _ hpred
      simp at hpred
    · intro b hb
      left
      exact (List.mem_filter.mp hb).1
  · rw [if_neg hr]
    constructor
    · rw [List.filter_append]
      have h1 : ((store.planItems.filter (fun b => !inWindow inp b)).filter
          (fun b => inWindow inp b)) = [] := by
        rw [List.filter_filter, List.filter_eq_nil_iff]
        intro b _ hpred
        simp at hpred
      have h2 : (planRows inp).filter (fun b => inWindow inp b) = planRows inp :=
        List.filter_eq_self.mpr (planRows_inWindow inp)
      rw [h1, h2, List.nil_append]
    · intro b hb
      rcases List.mem_append.mp hb with h | h
      · left
        exact (List.mem_filter.mp h).1
      · right
        exact h

/-- C4 counterexample: one assessment qualifies but its estimate rounds to
zero minutes, so zero blocks are produced and the shortfall is 0 — yet the
zero-block branch always returns the non-null warning string
`"Overload shortfall: 0 minutes."`, contradicting the claim that the warning
is null when `shortfallMinutes = 0`. -/
theorem C4_warning_counterexample :
    qualifyingAssessments inpZeroEstimate ≠ [] ∧
      (generatePlanForUser inpZeroEstimate emptyStore).2.planRowsCount = 0 ∧
      (generatePlanForUser inpZeroEstimate emptyStore).2.shortfallMinutes = 0 ∧
      (generatePlanForUser inpZeroEstimate emptyStore).2.warning
        = some "Overload shortfall: 0 minutes." := by
  decide

/-- C4 (amended): whenever at least one assessment qualifies but zero blocks
are produced, the run persists a shortfall-only summary (after the window
delete) and returns `planRowsCount = 0` with the nothing-scheduled message;
the warning is always the non-null string reporting the shortfall, which
reads "0 minutes" when `shortfallMinutes = 0`. -/
theorem C4_zero_block_result (inp : GenInputs) (store : Store)
    (hq : qualifyingAssessments inp ≠ []) (hz : planRows inp = []) :
    generatePlanForUser inp store =
      ({ planItems := store.planItems.filter (fun b => ! inWindow inp b),
         planMeta := some (shortfallMinutes inp) },
       { planRowsCount := 0,
         shortfallMinutes := shortfallMinutes inp,
         message := some "No time available in the next 7 days to schedule tasks.",
         warning := some ("Overload shortfall: "
           ++ minutesToShortfall (shortfallMinutes inp) ++ ".") }) := by
  have hqe : ¬ ((qualifyingAssessments inp).isEmpty = true) := by
    simp [List.isEmpty_iff, hq]
  have hre : (planRows inp).isEmpty = true := by
    simp [List.isEmpty_iff, hz]
  simp only [generatePlanForUser, if_neg hqe, if_pos hre]

/-- C5 counterexample: with 45 minutes of capacity on each of days 0 and 1
and one 60-minute assessment, the allocator emits blocks of 30, 15 and 15
minutes for that single assessment — two blocks that are not multiples of
30, refuting "at most one non-multiple block per assessment across the whole
7-day plan". -/
theorem C5_granularity_counterexample :
    (qualifyingAssessments inpFragmented).map AssessmentRow.id = [1] ∧
      ((planRows inpFragmented).countP
        (fun b => b.assessmentId == 1 && !decide (30 ∣ b.minutes))) = 2 := by
  decide

/-- C5 (amended): every generated block has a positive duration of at most
the 30-minute chunk, and — with unique assessment ids — for every assessment
and every single date at most one of its blocks on that date is not a
multiple of 30 minutes (the day's final fragment).  Across days the bound as
originally claimed fails, because a day's capacity can cut a fragment on
each day. -/
theorem C5_block_granularity (inp : GenInputs)
    (hnd : ((qualifyingAssessments inp).map AssessmentRow.id).Nodup) :
    (∀ b ∈ planRows inp, 0 < b.minutes ∧ b.minutes ≤ 30) ∧
      ∀ aid d : ℕ,
        ((planRows inp).countP
          (fun b => b.assessmentId == aid && b.planDate == inp.today + d
            && !decide (30 ∣ b.minutes))) ≤ 1 := by
  constructor
  · intro b hb
    obtain ⟨_, _, _, _, h1, h2, _⟩ := planRows_mem inp b hb
    exact ⟨h1, h2⟩
  · intro aid d
    have hnds : ((scoredInit inp).map Scored.id).Nodup := by
      rw [scoredInit_ids]
      exact hnd
    have h := foldDays_frag inp aid d (List.range 7) (scoredInit inp, []) hnds
      (List.nodup_range 7)
    simp only [List.countP_nil, Nat.zero_add] at h
    have hsplit : (if d ∈ List.range 7 then (1:ℕ) else 0) ≤ 1 := by
      split <;> omega
    unfold planRows runAllDays
    exact le_trans h hsplit

/-- C6: Priority ordering.  On a day where exactly two assessments are
candidates, the one with strictly higher score `(difficulty+1)/(daysLeft+1)`
is served first: when the day's capacity does not exceed its remaining need,
it receives every block of the day (summing to the whole capacity) and the
lower-scored assessment's counter is untouched. -/
theorem C6_priority_ordering (courses : List CourseRow) (date : ℤ)
    (scored : List Scored) (cap : ℕ) (i j : ℕ) (a b : Scored)
    (ha : scored[i]? = some a) (hb : scored[j]? = some b) (hij : i ≠ j)
    (hcand : ∀ k c, scored[k]? = some c →
      (isCandidate date c = true ↔ (k = i ∨ k = j)))
    (hs : b.score < a.score) (hcap0 : 0 < cap)
    (hcaple : cap ≤ a.remainingMinutes) :
    (∀ blk ∈ (processDay courses date scored
        (dayCandidates scored date) cap).2.1, blk.assessmentId = a.id) ∧
      sumMinutes (processDay courses date scored
        (dayCandidates scored date) cap).2.1 = cap ∧
      (processDay courses date scored
        (dayCandidates scored date) cap).1[j]? = some b :=
  processDay_two_candidates courses date scored cap i j a b ha hb hij hcand hs
    hcap0 hcaple

/-- C8: Idempotence.  Re-running the generator on the store it just produced,
with the same inputs (availability, assessments, courses and reference
date), leaves the store unchanged and returns the identical result — the
generated blocks and the shortfall depend only on the inputs, and the window
delete removes exactly the previously inserted window blocks. -/
theorem C8_idempotence (inp : GenInputs) (store : Store) :
    generatePlanForUser inp ((generatePlanForUser inp store).1)
      = generatePlanForUser inp store := by
  by_cases hq : (qualifyingAssessments inp).isEmpty = true
  · simp only [generatePlanForUser, if_pos hq]
  · by_cases hr : (planRows inp).isEmpty = true
    · simp only [generatePlanForUser, if_neg hq, if_pos hr, List.filter_filter,
        Bool.and_self]
    · have hwin : (planRows inp).filter (fun b => !inWindow inp b) = [] := by
        rw [List.filter_eq_nil_iff]
        intro b hb
        rw [planRows_inWindow inp b hb]
        simp
      simp only [generatePlanForUser, if_neg hq, if_neg hr, List.filter_append,
        hwin, List.append_nil, List.filter_filter, Bool.and_self]

/-- Witness for C1 at a concrete input: 4 estimated hours, due in 3 days. -/
theorem C1_conservation_witness :
    ((qualifyingAssessments inpEstimateA).map AssessmentRow.id).Nodup ∧
      (0:ℚ) < 4 ∧
      (((allocatedTo 1 (planRows inpEstimateA) : ℤ)
          + (remSum 1 (finalScored inpEstimateA) : ℤ) = jsRound ((4:ℚ) * 60)) ∧
        shortfallMinutes inpEstimateA
          = ((finalScored inpEstimateA).map Scored.remainingMinutes).sum) :=
  ⟨by decide, by decide,
    C1_conservation inpEstimateA assessA (by decide) (by decide) (by decide)⟩

/-- Witness for C2 at a concrete input (default 2 h/day availability). -/
theorem C2_capacity_invariant_witness :
    (∀ r ∈ inpEstimateA.availRows, (0:ℚ) ≤ r.hours) ∧
      ∀ d : ℕ, d < 7 →
        (sumMinutes ((planRows inpEstimateA).filter
            (fun b => b.planDate == inpEstimateA.today + d)) : ℤ)
          ≤ jsRound (hoursForWeekday inpEstimateA.availRows
              ((inpEstimateA.today + d) % 7) * 60) :=
  ⟨by decide, C2_capacity_invariant inpEstimateA (by decide)⟩

/-- Witness for the amended C3 at a concrete input with a stale stored
block. -/
theorem C3_window_replacement_witness :
    qualifyingAssessments inpEstimateA ≠ [] ∧
      (((generatePlanForUser inpEstimateA staleStore).1.planItems.filter
          (fun b => inWindow inpEstimateA b)) = planRows inpEstimateA ∧
        ∀ b ∈ (generatePlanForUser inpEstimateA staleStore).1.planItems,
          b ∈ staleStore.planItems ∨ b ∈ planRows inpEstimateA) :=
  ⟨by decide, C3_window_replacement inpEstimateA staleStore (by decide)⟩

/-- Witness for the amended C4 at a concrete input whose only qualifying
assessment has a zero estimate. -/
theorem C4_zero_block_result_witness :
    qualifyingAssessments inpZeroEstimate ≠ [] ∧
      planRows inpZeroEstimate = [] ∧
      generatePlanForUser inpZeroEstimate staleStore =
        ({ planItems := staleStore.planItems.filter
             (fun b => ! inWindow inpZeroEstimate b),
           planMeta := some (shortfallMinutes inpZeroEstimate) },
         { planRowsCount := 0,
           shortfallMinutes := shortfallMinutes inpZeroEstimate,
           message := some "No time available in the next 7 days to schedule tasks.",
           warning := some ("Overload shortfall: "
             ++ minutesToShortfall (shortfallMinutes inpZeroEstimate) ++ ".") }) :=
  ⟨by decide, by decide,
    C4_zero_block_result inpZeroEstimate staleStore (by decide) (by decide)⟩

/-- Witness for the amended C5 at the fragmented concrete input. -/
theorem C5_block_granularity_witness :
    ((qualifyingAssessments inpFragmented).map AssessmentRow.id).Nodup ∧
      ((∀ b ∈ planRows inpFragmented, 0 < b.minutes ∧ b.minutes ≤ 30) ∧
        ∀ aid d : ℕ,
          ((planRows inpFragmented).countP
            (fun b => b.assessmentId == aid
              && b.planDate == inpFragmented.today + d
              && !decide (30 ∣ b.minutes))) ≤ 1) :=
  ⟨by decide, C5_block_granularity inpFragmented (by decide)⟩

/-- Witness for C6: two candidates of scores 6 and 2, 30 minutes of
capacity. -/
theorem C6_priority_ordering_witness :
    scoredLow.score < scoredHigh.score ∧
      (30:ℕ) ≤ scoredHigh.remainingMinutes ∧
      ((∀ blk ∈ (processDay [] 1 [scoredHigh, scoredLow]
          (dayCandidates [scoredHigh, scoredLow] 1) 30).2.1,
          blk.assessmentId = scoredHigh.id) ∧
        sumMinutes (processDay [] 1 [scoredHigh, scoredLow]
          (dayCandidates [scoredHigh, scoredLow] 1) 30).2.1 = 30 ∧
        (processDay [] 1 [scoredHigh, scoredLow]
          (dayCandidates [scoredHigh, scoredLow] 1) 30).1[1]? = some scoredLow) :=
  ⟨by decide, by decide,
    C6_priority_ordering [] 1 [scoredHigh, scoredLow] 30 0 1 scoredHigh scoredLow
      (by decide) (by decide) (by decide)
      (fun k c hk => by
        match k with
        | 0 =>
          simp only [List.getElem?_cons_zero, Option.some.injEq] at hk
          subst hk
          simp [isCandidate, scoredHigh]
        | 1 =>
          simp only [List.getElem?_cons_succ, List.getElem?_cons_zero,
            Option.some.injEq] at hk
          subst hk
          simp [isCandidate, scoredLow]
        | (n + 2) =>
          simp at hk)
      (by decide) (by decide) (by decide)⟩

/-- Witness for C7 at a concrete input and one of its generated blocks. -/
theorem C7_due_date_boundary_witness :
    blockA ∈ planRows inpEstimateA ∧ blockA.planDate ≤ assessA.dueDate :=
  ⟨by decide,
    C7_due_date_boundary inpEstimateA assessA blockA
      (by decide) (by decide) (by decide) (by decide)⟩

/-- Witness for C9 at the all-zero availability input. -/
theorem C9_zero_capacity_safety_witness :
    (∀ r ∈ inpZeroAvail.availRows, (0:ℚ) ≤ r.hours) ∧
      ((∀ d : ℕ, d < 7 → capacityOfDay inpZeroAvail d ≤ 0 →
          (planRows inpZeroAvail).filter
            (fun b => b.planDate == inpZeroAvail.today + d) = []) ∧
        (totalCapacity inpZeroAvail = 0 → planRows inpZeroAvail = []) ∧
        ¬ (planRows inpZeroAvail ≠ [] ∧ totalCapacity inpZeroAvail = 0)) :=
  ⟨by decide, C9_zero_capacity_safety inpZeroAvail (by decide)⟩

/-- Witness for C10 at the zero-estimate input. -/
theorem C10_zero_estimate_witness :
    ((qualifyingAssessments inpZeroEstimate).map AssessmentRow.id).Nodup ∧
      jsRound ((0:ℚ) * 60) ≤ 0 ∧
      (((planRows inpZeroEstimate).filter (fun b => b.assessmentId == 1)) = [] ∧
        remSum 1 (finalScored inpZeroEstimate) = 0) :=
  ⟨by decide, by decide,
    C10_zero_estimate inpZeroEstimate assessZ (by decide) (by decide) (by decide)⟩

end StuddyBuddy
